import Mathlib

/-!
Verification development for the pgAdmin 4 feature patch
(backup scheduler, ERD export dialog, schema-diff colorizer).

Part A embeds the schema-diff colorizer `parseAndColorCodeDiff`
(JavaScript) as executable Lean functions over `String` / `List Char`.

Part B embeds the backup scheduler: the daily branch of
`calculate_next_run`, the `start()` method, and the `_run` poll loop
from the source; the weekly/monthly recurrence computation,
`should_run`, the one-time terminalisation, the execution error
handling and the `add` validation are not present in the source files
and are modelled from the spec (each such definition says so in its
doc comment).
-/

namespace DiffColor

/-- JavaScript regex `\s` character class (whitespace), as used by the
`test` calls of `parseAndColorCodeDiff`. -/
def jsWhitespace (c : Char) : Bool :=
  c == ' ' || c == '\t' || c == '\n' || c.val == 11 || c.val == 12 ||
  c == '\r' || c.val == 0xa0 || c.val == 0x1680 ||
  (0x2000 ≤ c.val && c.val ≤ 0x200a) || c.val == 0x2028 || c.val == 0x2029 ||
  c.val == 0x202f || c.val == 0x205f || c.val == 0x3000 || c.val == 0xfeff

/-- Does `s` start with the literal character `c`?  (regex `^c`). -/
def headIsChar (c : Char) (s : List Char) : Bool :=
  match s with
  | x :: _ => x == c
  | [] => false

/-- Is the first character of `l` a `\s` character? -/
def headIsWs (l : List Char) : Bool :=
  match l with
  | c :: _ => jsWhitespace c
  | [] => false

/-- Case-insensitive prefix test (ASCII folding via `Char.toUpper`),
modelling a `/i` regex anchored at the current position. -/
def isPrefixCI (pat s : List Char) : Bool :=
  match pat, s with
  | [], _ => true
  | _ :: _, [] => false
  | p :: ps, c :: cs => p.toUpper == c.toUpper && isPrefixCI ps cs

/-- Case-sensitive prefix test (for `String.prototype.includes`). -/
def isPrefixCS (pat s : List Char) : Bool :=
  match pat, s with
  | [], _ => true
  | _ :: _, [] => false
  | p :: ps, c :: cs => p == c && isPrefixCS ps cs

/-- `s.includes(pat)` — case-sensitive substring containment. -/
def containsSub (pat s : List Char) : Bool :=
  match s with
  | [] => pat.isEmpty
  | _ :: rest => isPrefixCS pat s || containsSub pat rest

/-- Case-insensitive substring containment (regex `PAT` with `/i`,
unanchored, for patterns such as `ADDED:`). -/
def containsCI (pat s : List Char) : Bool :=
  match s with
  | [] => pat.isEmpty
  | _ :: rest => isPrefixCI pat s || containsCI pat rest

/-- Unanchored case-insensitive occurrence of `pat` followed by a `\s`
character (regex `PAT\s` with `/i`, e.g. `ADD\s`). -/
def containsKwWs (pat s : List Char) : Bool :=
  match s with
  | [] => false
  | _ :: rest =>
      (isPrefixCI pat s && headIsWs (s.drop pat.length)) || containsKwWs pat rest

/-- Anchored `^\s*PAT\s` with `/i` (e.g. `^\s*CREATE\s`): after the
maximal leading `\s` run, `pat` case-insensitively, then a `\s`
character.  (Backtracking cannot produce other matches: no `\s`
character case-folds to a letter of the patterns used.) -/
def startsKwWs (pat s : List Char) : Bool :=
  let t := s.dropWhile jsWhitespace
  isPrefixCI pat t && headIsWs (t.drop pat.length)

/-- `addedRegex = /^\+|^\s*CREATE\s|^\s*INSERT\s|ADD\s|ADDED:/i`. -/
def addedRegexTest (s : List Char) : Bool :=
  headIsChar '+' s || startsKwWs "CREATE".toList s ||
  startsKwWs "INSERT".toList s || containsKwWs "ADD".toList s ||
  containsCI "ADDED:".toList s

/-- `removedRegex = /^\-|^\s*DROP\s|^\s*DELETE\s|REMOVE\s|REMOVED:|MISSING:/i`. -/
def removedRegexTest (s : List Char) : Bool :=
  headIsChar '-' s || startsKwWs "DROP".toList s ||
  startsKwWs "DELETE".toList s || containsKwWs "REMOVE".toList s ||
  containsCI "REMOVED:".toList s || containsCI "MISSING:".toList s

/-- `modifiedRegex = /^\s*ALTER\s|^\s*UPDATE\s|MODIFY\s|MODIFIED:|CHANGED:/i`. -/
def modifiedRegexTest (s : List Char) : Bool :=
  startsKwWs "ALTER".toList s || startsKwWs "UPDATE".toList s ||
  containsKwWs "MODIFY".toList s || containsCI "MODIFIED:".toList s ||
  containsCI "CHANGED:".toList s

/-- `addedKeywords.some(keyword => line.includes(keyword))`. -/
def hasAddedKeyword (s : List Char) : Bool :=
  containsSub "CREATE".toList s || containsSub "INSERT".toList s ||
  containsSub "ADD".toList s

/-- `removedKeywords.some(keyword => line.includes(keyword))`. -/
def hasRemovedKeyword (s : List Char) : Bool :=
  containsSub "DROP".toList s || containsSub "DELETE".toList s ||
  containsSub "REMOVE".toList s

/-- `modifiedKeywords.some(keyword => line.includes(keyword))`. -/
def hasModifiedKeyword (s : List Char) : Bool :=
  containsSub "ALTER".toList s || containsSub "UPDATE".toList s ||
  containsSub "MODIFY".toList s || containsSub "REPLACE".toList s

/-- The per-line body of the `for (const line of lines)` loop: the
string appended to `coloredDiff` for one line (each branch appends the
line, possibly span-wrapped, plus one newline). -/
def renderLine (line : String) : String :=
  if addedRegexTest line.toList then
    "<span class=\"diff-added\">" ++ line ++ "</span>\n"
  else if removedRegexTest line.toList then
    "<span class=\"diff-removed\">" ++ line ++ "</span>\n"
  else if modifiedRegexTest line.toList then
    "<span class=\"diff-modified\">" ++ line ++ "</span>\n"
  else
    if hasAddedKeyword line.toList && !hasRemovedKeyword line.toList &&
        !hasModifiedKeyword line.toList then
      "<span class=\"diff-added\">" ++ line ++ "</span>\n"
    else if hasRemovedKeyword line.toList && !hasAddedKeyword line.toList &&
        !hasModifiedKeyword line.toList then
      "<span class=\"diff-removed\">" ++ line ++ "</span>\n"
    else if hasModifiedKeyword line.toList then
      "<span class=\"diff-modified\">" ++ line ++ "</span>\n"
    else
      line ++ "\n"

/-- The accumulation loop over `lines`, threading `coloredDiff`. -/
def renderLoop (lines : List String) (acc : String) : String :=
  match lines with
  | [] => acc
  | l :: ls => renderLoop ls (acc ++ renderLine l)

/-- `parseAndColorCodeDiff(diffSQL)`.  The argument is `none` for the
JavaScript `null`/`undefined`; `if (!diffSQL) return null` also fires
on the (falsy) empty string. -/
def parseAndColorCodeDiff (diffSQL : Option String) : Option String :=
  match diffSQL with
  | none => none
  | some s =>
      if s = "" then none
      else some (renderLoop (s.splitOn "\n") "")

/-- Order-preserving concatenation of the rendered lines. -/
def renderAll (lines : List String) : String :=
  match lines with
  | [] => ""
  | l :: ls => renderLine l ++ renderAll ls

end DiffColor

namespace DiffColor

theorem renderLoop_eq_renderAll (ls : List String) (acc : String) :
    renderLoop ls acc = acc ++ renderAll ls := by
  induction ls generalizing acc with
  | nil => simp [renderLoop, renderAll]
  | cons l ls ih =>
      simp [renderLoop, renderAll, ih, String.append_assoc]

/-- C9: `parseAndColorCodeDiff` returns null (`none`) for every falsy
input — `null`/`undefined` (`none`) and the empty string — and a
non-null string for every non-empty input string. -/
theorem parse_none_on_falsy_some_on_nonempty :
    parseAndColorCodeDiff none = none ∧
    parseAndColorCodeDiff (some "") = none ∧
    ∀ s : String, s ≠ "" → ∃ out : String, parseAndColorCodeDiff (some s) = some out := by
  refine ⟨rfl, rfl, fun s hs => ⟨renderLoop (s.splitOn "\n") "", ?_⟩⟩
  simp [parseAndColorCodeDiff, hs]

theorem parse_none_on_falsy_some_on_nonempty_witness :
    ∃ out : String, parseAndColorCodeDiff (some "DROP TABLE t;") = some out :=
  parse_none_on_falsy_some_on_nonempty.2.2 "DROP TABLE t;" (by decide)

/-- C10: on a non-empty input, the output is the in-order concatenation
of the rendered lines of the input split at newlines; each rendered line
is the original line text verbatim, wrapped in at most one of the three
span classes, followed by exactly one appended newline; and a line
beginning with `'+'` is always rendered as `diff-added`, whatever the
removal/modification patterns and keywords say about it. -/
theorem parse_preserves_lines_and_priority (s : String) (hs : s ≠ "") :
    parseAndColorCodeDiff (some s) = some (renderAll (s.splitOn "\n")) ∧
    (∀ l : String,
        renderLine l = l ++ "\n" ∨
        renderLine l = "<span class=\"diff-added\">" ++ l ++ "</span>\n" ∨
        renderLine l = "<span class=\"diff-removed\">" ++ l ++ "</span>\n" ∨
        renderLine l = "<span class=\"diff-modified\">" ++ l ++ "</span>\n") ∧
    (∀ l : String, headIsChar '+' l.toList = true →
        renderLine l = "<span class=\"diff-added\">" ++ l ++ "</span>\n") := by
  refine ⟨?_, ?_, ?_⟩
  · simp [parseAndColorCodeDiff, hs, renderLoop_eq_renderAll]
  · intro l
    unfold renderLine
    split
    · tauto
    · split
      · tauto
      · split
        · tauto
        · split
          · tauto
          · split
            · tauto
            · split
              · tauto
              · tauto
  · intro l h
    have h2 : headIsChar '+' l.data = true := h
    have hadd : addedRegexTest l.data = true := by
      simp [addedRegexTest, h2]
    simp [renderLine, hadd]

theorem parse_preserves_lines_and_priority_witness :
    parseAndColorCodeDiff (some "+x") = some (renderAll (("+x").splitOn "\n")) :=
  (parse_preserves_lines_and_priority "+x" (by decide)).1

end DiffColor

namespace Scheduler

/-- A Python naive `datetime`, abstracted as a calendar-day number (days
since an arbitrary epoch) plus a time of day.  `timedelta(days=1)` adds
exactly 86400 seconds to a naive datetime, i.e. it moves to the next day
at the same time of day, which this representation captures exactly. -/
structure PyDateTime where
  day : Nat
  hour : Nat
  minute : Nat
  second : Nat
deriving DecidableEq

/-- `dt.replace(hour=h, minute=m)`: same calendar day and second, with
the hour and minute fields replaced. -/
def replaceHourMinute (t : PyDateTime) (h m : Nat) : PyDateTime :=
  { t with hour := h, minute := m }

/-- `dt + timedelta(days=1)` on a naive datetime. -/
def addOneDay (t : PyDateTime) : PyDateTime :=
  { t with day := t.day + 1 }

/-- The `daily` branch of the source `calculate_next_run`:
`self.next_run = self.last_run.replace(hour=self.start_time.hour,
minute=self.start_time.minute) + timedelta(days=1)`. -/
def calculate_next_run_daily (last_run : PyDateTime)
    (start_hour start_minute : Nat) : PyDateTime :=
  addOneDay (replaceHourMinute last_run start_hour start_minute)

/-- C1: for a Daily job with `lastRun = D`, the computed next run is on
the calendar day `D + 1 day`, at `startTime`'s hour and minute (and it
keeps `D`'s seconds, which `replace(hour=…, minute=…)` does not touch). -/
theorem daily_next_run_day_plus_one (D : PyDateTime) (sh sm : Nat) :
    (calculate_next_run_daily D sh sm).day = D.day + 1 ∧
    (calculate_next_run_daily D sh sm).hour = sh ∧
    (calculate_next_run_daily D sh sm).minute = sm ∧
    (calculate_next_run_daily D sh sm).second = D.second :=
  ⟨rfl, rfl, rfl, rfl⟩

/-- Observable state of the scheduler service: the `running` flag and
the number of loop threads that have been created and started
(`threading.Thread(target=self._run, …)` followed by `.start()`). -/
structure SchedulerState where
  running : Bool
  threadsStarted : Nat
deriving DecidableEq

/-- The source `start` method: it sets `self.running = True` and then
unconditionally creates and starts a new scheduler thread; there is no
guard on the current value of `running`. -/
def start (s : SchedulerState) : SchedulerState :=
  { running := true, threadsStarted := s.threadsStarted + 1 }

/-- C2 counterexample: on a scheduler that is already Running (one loop
thread started), `start()` is not a no-op — it changes the state by
starting a second loop thread. -/
theorem start_on_running_not_noop :
    start ⟨true, 1⟩ ≠ (⟨true, 1⟩ : SchedulerState) ∧
    (start ⟨true, 1⟩).threadsStarted = 2 := by decide

/-- C2 amended: `start()` always sets `running` to `true` and always
starts one additional loop thread, also when the scheduler is already
Running; idempotence is not enforced inside `start` (the
`restart_scheduler` endpoint stops the scheduler before starting it). -/
theorem start_always_spawns (s : SchedulerState) :
    (start s).running = true ∧
    (start s).threadsStarted = s.threadsStarted + 1 :=
  ⟨rfl, rfl⟩

end Scheduler

namespace Scheduler

/-- An instant on an abstract day-numbered timeline: `day` counts
calendar days from an arbitrary epoch, `tod` is seconds since midnight
(`tod < 86400` for valid instants). -/
structure WInstant where
  day : Nat
  tod : Nat
deriving DecidableEq

/-- Linear key of an instant; on valid instants it is order-isomorphic
to (day, tod) lexicographic order. -/
def wkey (w : WInstant) : Nat := w.day * 86400 + w.tod

/-- Weekday of a day number (0‥6; the epoch's weekday is irrelevant to
the properties proved below). -/
def weekdayOf (d : Nat) : Nat := d % 7

/-- Fuel-bounded search used by `calculate_next_run_weekly`: try the
offsets `k, k+1, …` from `now`'s day and return the first candidate
(at `startTime`'s time of day) whose weekday is configured and which
lies strictly after `now`. -/
def weeklyFrom (days : List Nat) (st : Nat) (now : WInstant) :
    Nat → Nat → Option WInstant
  | 0, _ => none
  | Nat.succ fuel, k =>
      if weekdayOf (now.day + k) ∈ days ∧ wkey now < wkey ⟨now.day + k, st⟩ then
        some ⟨now.day + k, st⟩
      else weeklyFrom days st now fuel (k + 1)

/-- Modelled from the spec: the weekly branch of `calculate_next_run`
is not in the source (`# Weekly logic`); per §4.3, `nextRun` is the
nearest future instant whose weekday is in the configured day set and
whose time-of-day equals `startTime`'s — today included when today's
occurrence has not yet passed.  Eight offsets (today through seven days
ahead) cover every weekday both strictly in the future and today. -/
def calculate_next_run_weekly (days : List Nat) (st : Nat)
    (now : WInstant) : Option WInstant :=
  weeklyFrom days st now 8 0

theorem weeklyFrom_sound (days : List Nat) (st : Nat) (now : WInstant) :
    ∀ fuel k r, weeklyFrom days st now fuel k = some r →
      ∃ j, k ≤ j ∧ j < k + fuel ∧ r = ⟨now.day + j, st⟩ ∧
        weekdayOf (now.day + j) ∈ days ∧ wkey now < wkey r ∧
        ∀ i, k ≤ i → i < j →
          ¬(weekdayOf (now.day + i) ∈ days ∧ wkey now < wkey ⟨now.day + i, st⟩) := by
  intro fuel
  induction fuel with
  | zero => intro k r h; simp [weeklyFrom] at h
  | succ n ih =>
      intro k r h
      rw [weeklyFrom] at h
      by_cases hc : weekdayOf (now.day + k) ∈ days ∧ wkey now < wkey ⟨now.day + k, st⟩
      · rw [if_pos hc] at h
        refine ⟨k, le_refl k, by omega, (Option.some_inj.mp h).symm, hc.1, ?_, ?_⟩
        · rw [← Option.some_inj.mp h]; exact hc.2
        · intro i hi1 hi2; omega
      · rw [if_neg hc] at h
        obtain ⟨j, hj1, hj2, hj3, hj4, hj5, hj6⟩ := ih (k + 1) r h
        refine ⟨j, by omega, by omega, hj3, hj4, hj5, ?_⟩
        intro i hi1 hi2
        by_cases hik : i = k
        · subst hik; exact hc
        · exact hj6 i (by omega) hi2

theorem weeklyFrom_complete (days : List Nat) (st : Nat) (now : WInstant) :
    ∀ fuel k j, k ≤ j → j < k + fuel →
      weekdayOf (now.day + j) ∈ days → wkey now < wkey ⟨now.day + j, st⟩ →
      ∃ r, weeklyFrom days st now fuel k = some r := by
  intro fuel
  induction fuel with
  | zero => intro k j h1 h2; omega
  | succ n ih =>
      intro k j h1 h2 h3 h4
      by_cases hc : weekdayOf (now.day + k) ∈ days ∧ wkey now < wkey ⟨now.day + k, st⟩
      · exact ⟨⟨now.day + k, st⟩, by rw [weeklyFrom, if_pos hc]⟩
      · have hjk : j ≠ k := by
          intro he; exact hc (he ▸ ⟨h3, h4⟩)
        obtain ⟨r, hr⟩ := ih (k + 1) j (by omega) (by omega) h3 h4
        exact ⟨r, by rw [weeklyFrom, if_neg hc]; exact hr⟩

/-- C6: for a Weekly job with a non-empty day set `S` of weekdays, the
next-run computation returns the nearest future instant whose weekday
is in `S` at `startTime`'s time of day; and when `now` falls on a day
in `S` before `startTime`'s time of day, the result is on `now`'s own
day. -/
theorem weekly_next_run_nearest (days : List Nat) (st : Nat) (now : WInstant)
    (hne : days ≠ []) (hdays : ∀ x ∈ days, x < 7)
    (hnow : now.tod < 86400) (hst : st < 86400) :
    ∃ r, calculate_next_run_weekly days st now = some r ∧
      weekdayOf r.day ∈ days ∧ r.tod = st ∧ wkey now < wkey r ∧
      (∀ c : WInstant, weekdayOf c.day ∈ days → c.tod = st →
          wkey now < wkey c → wkey r ≤ wkey c) ∧
      (weekdayOf now.day ∈ days → now.tod < st → r.day = now.day) := by
  obtain ⟨w0, hw0mem⟩ := List.exists_mem_of_ne_nil days hne
  have hw0 : w0 < 7 := hdays w0 hw0mem
  -- existence of a hit within the eight searched offsets
  have hex : ∃ r, calculate_next_run_weekly days st now = some r := by
    set j0 : Nat := (w0 + 7 - now.day % 7) % 7 with hj0def
    have hj0w : weekdayOf (now.day + j0) = w0 := by
      unfold weekdayOf; omega
    by_cases h0 : wkey now < wkey ⟨now.day + j0, st⟩
    · exact weeklyFrom_complete days st now 8 0 j0 (by omega) (by omega)
        (hj0w ▸ hw0mem) h0
    · have hj00 : j0 = 0 := by
        by_contra hne0
        exact h0 (by unfold wkey; simp only []; omega)
      have hw7 : weekdayOf (now.day + 7) = w0 := by
        unfold weekdayOf; unfold weekdayOf at hj0w; omega
      refine weeklyFrom_complete days st now 8 0 7 (by omega) (by omega)
        (hw7 ▸ hw0mem) ?_
      unfold wkey; simp only []; omega
  obtain ⟨r, hr⟩ := hex
  obtain ⟨j, hj1, hj2, hj3, hj4, hj5, hj6⟩ :=
    weeklyFrom_sound days st now 8 0 r hr
  refine ⟨r, hr, ?_, ?_, hj5, ?_, ?_⟩
  · rw [hj3]; exact hj4
  · rw [hj3]
  · -- minimality among all valid future candidates
    intro c hcmem hctod hcfut
    have hwc : wkey c = c.day * 86400 + c.tod := rfl
    have hwn : wkey now = now.day * 86400 + now.tod := rfl
    have hcday : now.day ≤ c.day := by omega
    have hcd : c.day = now.day + (c.day - now.day) := by omega
    by_cases hij : c.day - now.day < j
    · exfalso
      refine hj6 (c.day - now.day) (by omega) hij ⟨?_, ?_⟩
      · rw [← hcd]; exact hcmem
      · have h2 : wkey ⟨now.day + (c.day - now.day), st⟩ = c.day * 86400 + c.tod := by
          show (now.day + (c.day - now.day)) * 86400 + st = c.day * 86400 + c.tod
          omega
        rw [h2, ← hwc]; exact hcfut
    · have hrk : wkey r = (now.day + j) * 86400 + st := by
        rw [hj3]; rfl
      omega
  · -- same-day case
    intro hm ht
    have hwn : wkey now = now.day * 86400 + now.tod := rfl
    have hP0 : weekdayOf (now.day + 0) ∈ days ∧ wkey now < wkey ⟨now.day + 0, st⟩ := by
      constructor
      · simpa using hm
      · show wkey now < (now.day + 0) * 86400 + st
        omega
    have hj0 : j = 0 := by
      by_contra hne0
      exact hj6 0 (by omega) (by omega) hP0
    rw [hj3, hj0]
    show now.day + 0 = now.day
    omega

/-- Witness for C6: days `{Monday = 1, Thursday = 4}`, start time
09:00:00, now Wednesday (day 9 with day 0 a Sunday) 10:00:00. -/
theorem weekly_next_run_nearest_witness :
    ∃ r, calculate_next_run_weekly [1, 4] 32400 ⟨10, 36000⟩ = some r ∧
      weekdayOf r.day ∈ [1, 4] ∧ r.tod = 32400 ∧ wkey ⟨10, 36000⟩ < wkey r ∧
      (∀ c : WInstant, weekdayOf c.day ∈ [1, 4] → c.tod = 32400 →
          wkey ⟨10, 36000⟩ < wkey c → wkey r ≤ wkey c) ∧
      (weekdayOf (10 : Nat) ∈ [1, 4] → 36000 < 32400 → r.day = 10) :=
  weekly_next_run_nearest [1, 4] 32400 ⟨10, 36000⟩ (by decide)
    (by decide) (by decide) (by decide)

end Scheduler

namespace Scheduler

/-- A calendar instant: Gregorian year, month (1‥12), day of month
(1‥31), and seconds since midnight (`tod < 86400`). -/
structure CalInstant where
  year : Nat
  month : Nat
  day : Nat
  tod : Nat
deriving DecidableEq

/-- Gregorian leap-year rule. -/
def isLeapYear (y : Nat) : Bool :=
  (y % 4 == 0 && !(y % 100 == 0)) || y % 400 == 0

/-- Number of days of month `m` of year `y`. -/
def daysInMonth (y m : Nat) : Nat :=
  if m = 2 then (if isLeapYear y then 29 else 28)
  else if m = 4 ∨ m = 6 ∨ m = 9 ∨ m = 11 then 30
  else 31

/-- Linear key of a calendar instant; on valid instants (day ≤ 31,
tod < 86400) it is order-isomorphic to (year, month, day, tod)
lexicographic order. -/
def mkey (c : CalInstant) : Nat :=
  ((c.year * 12 + (c.month - 1)) * 32 + c.day) * 86400 + c.tod

/-- The candidate run of month index `n` (`n = year * 12 + (month - 1)`):
`startTime`'s day of month, clamped to the month's last day, at
`startTime`'s time of day. -/
def candidate (dom tod n : Nat) : CalInstant :=
  ⟨n / 12, n % 12 + 1, min dom (daysInMonth (n / 12) (n % 12 + 1)), tod⟩

/-- Fuel-bounded search used by `calculate_next_run_monthly`: try month
indices `n, n+1, …` and return the first candidate in a configured
month that lies strictly after `now`. -/
def monthlyFrom (months : List Nat) (dom tod : Nat) (now : CalInstant) :
    Nat → Nat → Option CalInstant
  | 0, _ => none
  | Nat.succ fuel, n =>
      if (n % 12 + 1) ∈ months ∧ mkey now < mkey (candidate dom tod n) then
        some (candidate dom tod n)
      else monthlyFrom months dom tod now fuel (n + 1)

/-- Modelled from the spec: the monthly branch of `calculate_next_run`
is not in the source (`# Monthly logic with proper month transition
handling`); per §4.3, `nextRun` is the nearest future instant whose
month is configured, at `startTime`'s day of month (clamped to the
month's last day when it does not exist) and time of day, with the year
rolling over when the current year's configured months are exhausted.
Fourteen month indices starting at `now`'s month cover the current
month plus a full year. -/
def calculate_next_run_monthly (months : List Nat) (dom tod : Nat)
    (now : CalInstant) : Option CalInstant :=
  monthlyFrom months dom tod now 14 (now.year * 12 + (now.month - 1))

theorem daysInMonth_bounds (y m : Nat) :
    28 ≤ daysInMonth y m ∧ daysInMonth y m ≤ 31 := by
  unfold daysInMonth
  split
  · split <;> omega
  · split <;> omega

theorem daysInMonth_feb (y : Nat) :
    daysInMonth y 2 = if isLeapYear y then 29 else 28 := by
  unfold daysInMonth
  simp

theorem candidate_fields (dom tod n : Nat) :
    (candidate dom tod n).year = n / 12 ∧
    (candidate dom tod n).month = n % 12 + 1 ∧
    (candidate dom tod n).day =
      min dom (daysInMonth (n / 12) (n % 12 + 1)) ∧
    (candidate dom tod n).tod = tod :=
  ⟨rfl, rfl, rfl, rfl⟩

theorem mkey_candidate (dom tod n : Nat) :
    mkey (candidate dom tod n) =
      (n * 32 + min dom (daysInMonth (n / 12) (n % 12 + 1))) * 86400 + tod := by
  show ((n / 12 * 12 + (n % 12 + 1 - 1)) * 32 +
      min dom (daysInMonth (n / 12) (n % 12 + 1))) * 86400 + tod =
    (n * 32 + min dom (daysInMonth (n / 12) (n % 12 + 1))) * 86400 + tod
  omega

theorem candidate_of_month (dom tod y m : Nat) (h1 : 1 ≤ m) (h2 : m ≤ 12) :
    candidate dom tod (y * 12 + (m - 1)) =
      ⟨y, m, min dom (daysInMonth y m), tod⟩ := by
  have hy : (y * 12 + (m - 1)) / 12 = y := by omega
  have hm : (y * 12 + (m - 1)) % 12 + 1 = m := by omega
  unfold candidate
  rw [hy, hm]

theorem monthlyFrom_sound (months : List Nat) (dom tod : Nat)
    (now : CalInstant) :
    ∀ fuel n r, monthlyFrom months dom tod now fuel n = some r →
      ∃ j, n ≤ j ∧ j < n + fuel ∧ r = candidate dom tod j ∧
        (j % 12 + 1) ∈ months ∧ mkey now < mkey r ∧
        ∀ i, n ≤ i → i < j →
          ¬((i % 12 + 1) ∈ months ∧ mkey now < mkey (candidate dom tod i)) := by
  intro fuel
  induction fuel with
  | zero => intro n r h; simp [monthlyFrom] at h
  | succ f ih =>
      intro n r h
      rw [monthlyFrom] at h
      by_cases hc : (n % 12 + 1) ∈ months ∧ mkey now < mkey (candidate dom tod n)
      · rw [if_pos hc] at h
        refine ⟨n, le_refl n, by omega, (Option.some_inj.mp h).symm, hc.1, ?_, ?_⟩
        · rw [← Option.some_inj.mp h]; exact hc.2
        · intro i hi1 hi2; omega
      · rw [if_neg hc] at h
        obtain ⟨j, hj1, hj2, hj3, hj4, hj5, hj6⟩ := ih (n + 1) r h
        refine ⟨j, by omega, by omega, hj3, hj4, hj5, ?_⟩
        intro i hi1 hi2
        by_cases hik : i = n
        · subst hik; exact hc
        · exact hj6 i (by omega) hi2

theorem monthlyFrom_complete (months : List Nat) (dom tod : Nat)
    (now : CalInstant) :
    ∀ fuel n j, n ≤ j → j < n + fuel →
      (j % 12 + 1) ∈ months → mkey now < mkey (candidate dom tod j) →
      ∃ r, monthlyFrom months dom tod now fuel n = some r := by
  intro fuel
  induction fuel with
  | zero => intro n j h1 h2; omega
  | succ f ih =>
      intro n j h1 h2 h3 h4
      by_cases hc : (n % 12 + 1) ∈ months ∧ mkey now < mkey (candidate dom tod n)
      · exact ⟨candidate dom tod n, by rw [monthlyFrom, if_pos hc]⟩
      · have hjn : j ≠ n := by
          intro he; exact hc (he ▸ ⟨h3, h4⟩)
        obtain ⟨r, hr⟩ := ih (n + 1) j (by omega) (by omega) h3 h4
        exact ⟨r, by rw [monthlyFrom, if_neg hc]; exact hr⟩

end Scheduler

namespace Scheduler

/-- C5: for a Monthly job with a non-empty set of valid months, the
next-run computation returns the nearest future instant whose month is
configured, at `startTime`'s day of month clamped to that month's last
day, at `startTime`'s time of day; in particular with day-of-month 31
and February chosen, the result's day is February's last day (29 in
leap years, 28 otherwise). -/
theorem monthly_next_run_nearest (months : List Nat) (dom tod : Nat)
    (now : CalInstant) (hne : months ≠ [])
    (hmonths : ∀ m ∈ months, 1 ≤ m ∧ m ≤ 12)
    (hdom1 : 1 ≤ dom) (hdom2 : dom ≤ 31)
    (hnowm1 : 1 ≤ now.month) (hnowm2 : now.month ≤ 12)
    (hnowd1 : 1 ≤ now.day) (hnowd2 : now.day ≤ 31)
    (hnowt : now.tod < 86400) (htod : tod < 86400) :
    ∃ r, calculate_next_run_monthly months dom tod now = some r ∧
      r.month ∈ months ∧
      r.day = min dom (daysInMonth r.year r.month) ∧
      r.tod = tod ∧
      mkey now < mkey r ∧
      (∀ y m, m ∈ months →
          mkey now < mkey ⟨y, m, min dom (daysInMonth y m), tod⟩ →
          mkey r ≤ mkey ⟨y, m, min dom (daysInMonth y m), tod⟩) ∧
      (dom = 31 → r.month = 2 →
          r.day = if isLeapYear r.year then 29 else 28) := by
  obtain ⟨m0, hm0mem⟩ := List.exists_mem_of_ne_nil months hne
  obtain ⟨hm01, hm02⟩ := hmonths m0 hm0mem
  set nym : Nat := now.year * 12 + (now.month - 1) with hnym
  have hmn : mkey now = (nym * 32 + now.day) * 86400 + now.tod := rfl
  -- a hit exists within the 14 searched month indices
  have hex : ∃ r, calculate_next_run_monthly months dom tod now = some r := by
    set j : Nat := nym + 1 + ((m0 - 1 + 12 - (nym + 1) % 12) % 12) with hjdef
    have hjm : j % 12 + 1 = m0 := by omega
    have hdc := daysInMonth_bounds (j / 12) (j % 12 + 1)
    have hkey : mkey now < mkey (candidate dom tod j) := by
      rw [mkey_candidate, hmn]
      have h1 : 1 ≤ min dom (daysInMonth (j / 12) (j % 12 + 1)) := by omega
      omega
    exact monthlyFrom_complete months dom tod now 14 nym j (by omega) (by omega)
      (hjm ▸ hm0mem) hkey
  obtain ⟨r, hr⟩ := hex
  obtain ⟨j, hj1, hj2, hj3, hj4, hj5, hj6⟩ :=
    monthlyFrom_sound months dom tod now 14 nym r hr
  have hrfield := candidate_fields dom tod j
  refine ⟨r, hr, ?_, ?_, ?_, hj5, ?_, ?_⟩
  · rw [hj3, hrfield.2.1]; exact hj4
  · rw [hj3, hrfield.2.2.1, hrfield.1, hrfield.2.1]
  · rw [hj3, hrfield.2.2.2]
  · -- minimality among all valid future candidates
    intro y m hmmem hcfut
    obtain ⟨hm1, hm2⟩ := hmonths m hmmem
    set jc : Nat := y * 12 + (m - 1) with hjc
    have hcand : candidate dom tod jc = ⟨y, m, min dom (daysInMonth y m), tod⟩ :=
      candidate_of_month dom tod y m hm1 hm2
    have hdb := daysInMonth_bounds y m
    have hkc : mkey (⟨y, m, min dom (daysInMonth y m), tod⟩ : CalInstant) =
        (jc * 32 + min dom (daysInMonth y m)) * 86400 + tod := by
      show ((y * 12 + (m - 1)) * 32 + min dom (daysInMonth y m)) * 86400 + tod =
        (jc * 32 + min dom (daysInMonth y m)) * 86400 + tod
      omega
    have hjcge : nym ≤ jc := by
      by_contra hlt
      rw [hkc] at hcfut
      omega
    have hjmc : jc % 12 + 1 = m := by omega
    by_cases hij : jc < j
    · exfalso
      refine hj6 jc (by omega) hij ⟨?_, ?_⟩
      · rw [hjmc]; exact hmmem
      · rw [hcand]; exact hcfut
    · have hjle : j ≤ jc := by omega
      have hmr : mkey r =
          (j * 32 + min dom (daysInMonth (j / 12) (j % 12 + 1))) * 86400 + tod := by
        rw [hj3, mkey_candidate]
      rw [hmr, hkc]
      have hk31 : min dom (daysInMonth (j / 12) (j % 12 + 1)) ≤ 31 := by
        have := daysInMonth_bounds (j / 12) (j % 12 + 1); omega
      have ho1 : 1 ≤ min dom (daysInMonth y m) := by omega
      rcases Nat.eq_or_lt_of_le hjle with he | hlt
      · have hy2 : jc / 12 = y := by omega
        rw [he, hy2, hjmc]
      · omega
  · -- February clamping
    intro hdom31 hrm
    have hdr : r.day = min dom (daysInMonth r.year r.month) := by
      rw [hj3, hrfield.2.2.1, hrfield.1, hrfield.2.1]
    rw [hdr, hrm, daysInMonth_feb, hdom31]
    split <;> omega

/-- Witness for C5: months `{February, April}`, day-of-month 30, start
time-of-day midnight, now March 1 2025 midnight (spec scenario: next
run is April 30). -/
theorem monthly_next_run_nearest_witness :
    ∃ r, calculate_next_run_monthly [2, 4] 30 0 ⟨2025, 3, 1, 0⟩ = some r ∧
      r.month ∈ [2, 4] ∧
      r.day = min 30 (daysInMonth r.year r.month) ∧
      r.tod = 0 ∧
      mkey ⟨2025, 3, 1, 0⟩ < mkey r ∧
      (∀ y m, m ∈ [2, 4] →
          mkey ⟨2025, 3, 1, 0⟩ < mkey ⟨y, m, min 30 (daysInMonth y m), 0⟩ →
          mkey r ≤ mkey ⟨y, m, min 30 (daysInMonth y m), 0⟩) ∧
      ((30 : Nat) = 31 → r.month = 2 →
          r.day = if isLeapYear r.year then 29 else 28) :=
  monthly_next_run_nearest [2, 4] 30 0 ⟨2025, 3, 1, 0⟩ (by decide)
    (by decide) (by decide) (by decide) (by decide) (by decide)
    (by decide) (by decide) (by decide) (by decide)

end Scheduler

namespace Scheduler

inductive JobStatus
  | pending
  | running
  | succeeded
  | failed
deriving DecidableEq

inductive ScheduleType
  | one_time
  | daily
  | weekly
  | monthly
deriving DecidableEq

/-- A `BackupSchedulerJob`'s scheduling state over an abstract instant
timeline (`Nat`). -/
structure Job where
  schedule_type : ScheduleType
  start_time : Nat
  last_run : Option Nat
  next_run : Option Nat
  status : JobStatus
deriving DecidableEq

/-- Modelled from the spec: `should_run` is called by `_run` but its
body is not in the source; per §4.2 step 2 a job is due when its
status is not `Running` and its `nextRun` — or, never having run, its
`startTime` — has arrived. -/
def should_run (j : Job) (now : Nat) : Bool :=
  decide (j.status ≠ JobStatus.running) &&
  (match j.next_run with
   | some t => decide (t ≤ now)
   | none => j.last_run.isNone && decide (j.start_time ≤ now))

/-- The `calculate_next_run` call made by `_run` after an execution.
The `one_time` case is modelled from the spec §4.3 (the source excerpt
has no `one_time` branch): `nextRun = startTime` only if not yet run
and `startTime` has not passed, otherwise no next run (terminal).  The
three recurring kinds recompute `nextRun` through the abstract
computation `recur` (their arithmetic is analysed separately by
`calculate_next_run_daily` / `_weekly` / `_monthly`). -/
def calculate_next_run_sched (recur : Job → Nat → Nat) (j : Job)
    (now : Nat) : Job :=
  match j.schedule_type with
  | ScheduleType.one_time =>
      { j with next_run :=
          if j.last_run = none ∧ now ≤ j.start_time then some j.start_time
          else none }
  | _ => { j with next_run := some (recur j now) }

/-- Outcome of one job's treatment in a poll cycle: the backup
execution succeeded, it failed, or an unexpected exception was raised
while evaluating the job. -/
inductive ExecOutcome
  | success
  | failure
  | evalError
deriving DecidableEq

/-- One job's processing in a `_run` poll cycle, following the source
loop body `if job.should_run(): self._execute_backup(job);
job.last_run = datetime.now(); job.calculate_next_run()`.  Modelled
from the spec where the source elides it (§4.2 step 3, §7):
`_execute_backup` records the result on the job as
`Succeeded`/`Failed` and never propagates an exception, and an
unexpected error while evaluating one job is caught and logged,
leaving that job unchanged. -/
def processJob (recur : Job → Nat → Nat) (oc : ExecOutcome) (now : Nat)
    (j : Job) : Job :=
  match oc with
  | ExecOutcome.evalError => j
  | _ =>
      if should_run j now then
        let j1 := { j with status :=
          if oc = ExecOutcome.success then JobStatus.succeeded
          else JobStatus.failed }
        let j2 := { j1 with last_run := some now }
        calculate_next_run_sched recur j2 now
      else j

/-- A sequence of synchronous poll cycles acting on one job, each with
its own execution outcome and wall-clock instant. -/
def processCycles (recur : Job → Nat → Nat)
    (steps : List (ExecOutcome × Nat)) (j : Job) : Job :=
  match steps with
  | [] => j
  | (oc, t) :: rest => processCycles recur rest (processJob recur oc t j)

/-- The inner `for job in job_list:` walk of `_run`, processing the
jobs sequentially (the index gives each job its own outcome). -/
def pollCycleGo (recur : Job → Nat → Nat) (ocs : Nat → ExecOutcome)
    (now : Nat) : Nat → List Job → List Job
  | _, [] => []
  | i, j :: rest =>
      processJob recur (ocs i) now j :: pollCycleGo recur ocs now (i + 1) rest

/-- One poll cycle of `_run`: every job is evaluated and processed; the
loop's `running` flag is not written by the cycle (only `start`/`stop`
write it). -/
def pollCycle (recur : Job → Nat → Nat) (ocs : Nat → ExecOutcome)
    (now : Nat) (running : Bool) (jobs : List Job) : Bool × List Job :=
  (running, pollCycleGo recur ocs now 0 jobs)

/-- Modelled from the spec §4.2/§5: with asynchronous dispatch, a poll
cycle marks a due job `Running` before handing it to the execution
collaborator; `Running` is cleared only by the completion callback.
This is a cycle's action on one job while that callback has not fired. -/
def dispatchStep (now : Nat) (j : Job) : Job :=
  if should_run j now then { j with status := JobStatus.running } else j

/-- A sequence of poll cycles at instants `ts` during which the job's
completion callback never fires. -/
def pollCyclesNoCompletion (ts : List Nat) (j : Job) : Job :=
  match ts with
  | [] => j
  | t :: ts => pollCyclesNoCompletion ts (dispatchStep t j)

end Scheduler

namespace Scheduler

theorem processJob_fixed_of_terminal (recur : Job → Nat → Nat)
    (oc : ExecOutcome) (t : Nat) (j : Job)
    (h1 : j.next_run = none) (h2 : j.last_run ≠ none) :
    processJob recur oc t j = j := by
  have hsr : should_run j t = false := by
    unfold should_run
    rw [h1]
    have : j.last_run.isNone = false := by
      cases hl : j.last_run with
      | none => exact absurd hl h2
      | some v => rfl
    simp [this]
  cases oc with
  | evalError => rfl
  | success => simp [processJob, hsr]
  | failure => simp [processJob, hsr]

/-- C3: a OneTime job that is dispatched (whatever the execution
outcome, success or failure) ends the cycle with `lastRun` set and no
`nextRun`, in a terminal `Succeeded`/`Failed` status, and every later
sequence of poll cycles leaves it unchanged — in particular no later
cycle ever produces a `nextRun` for it. -/
theorem one_time_terminal_after_run (recur : Job → Nat → Nat)
    (oc : ExecOutcome) (now : Nat) (j : Job)
    (hot : j.schedule_type = ScheduleType.one_time)
    (hdisp : should_run j now = true) (hoc : oc ≠ ExecOutcome.evalError) :
    (processJob recur oc now j).next_run = none ∧
    (processJob recur oc now j).last_run = some now ∧
    ((processJob recur oc now j).status = JobStatus.succeeded ∨
     (processJob recur oc now j).status = JobStatus.failed) ∧
    ∀ steps, processCycles recur steps (processJob recur oc now j) =
      processJob recur oc now j := by
  have hpj : ∀ ocx, ocx ≠ ExecOutcome.evalError →
      processJob recur ocx now j =
        calculate_next_run_sched recur
          { j with
            status := if ocx = ExecOutcome.success then JobStatus.succeeded
              else JobStatus.failed,
            last_run := some now } now := by
    intro ocx hx
    cases ocx with
    | evalError => exact absurd rfl hx
    | success => simp [processJob, hdisp]
    | failure => simp [processJob, hdisp]
  have hkey : (processJob recur oc now j).next_run = none ∧
      (processJob recur oc now j).last_run = some now ∧
      ((processJob recur oc now j).status = JobStatus.succeeded ∨
       (processJob recur oc now j).status = JobStatus.failed) := by
    rw [hpj oc hoc]
    unfold calculate_next_run_sched
    rw [hot]
    refine ⟨?_, rfl, ?_⟩
    · simp
    · cases oc with
      | evalError => exact absurd rfl hoc
      | success => simp
      | failure => simp
  refine ⟨hkey.1, hkey.2.1, hkey.2.2, ?_⟩
  intro steps
  induction steps with
  | nil => rfl
  | cons s rest ih =>
      obtain ⟨oc2, t2⟩ := s
      rw [processCycles,
        processJob_fixed_of_terminal recur oc2 t2 _ hkey.1 (by rw [hkey.2.1]; simp),
        ih]

/-- Witness for C3: a due OneTime job (start time 5, now 10, never
run), failing execution. -/
theorem one_time_terminal_after_run_witness :
    (processJob (fun _ _ => 0) ExecOutcome.failure 10
        ⟨ScheduleType.one_time, 5, none, some 5, JobStatus.pending⟩).next_run = none ∧
    (processJob (fun _ _ => 0) ExecOutcome.failure 10
        ⟨ScheduleType.one_time, 5, none, some 5, JobStatus.pending⟩).last_run = some 10 ∧
    ((processJob (fun _ _ => 0) ExecOutcome.failure 10
        ⟨ScheduleType.one_time, 5, none, some 5, JobStatus.pending⟩).status = JobStatus.succeeded ∨
     (processJob (fun _ _ => 0) ExecOutcome.failure 10
        ⟨ScheduleType.one_time, 5, none, some 5, JobStatus.pending⟩).status = JobStatus.failed) ∧
    ∀ steps, processCycles (fun _ _ => 0) steps
        (processJob (fun _ _ => 0) ExecOutcome.failure 10
          ⟨ScheduleType.one_time, 5, none, some 5, JobStatus.pending⟩) =
      processJob (fun _ _ => 0) ExecOutcome.failure 10
        ⟨ScheduleType.one_time, 5, none, some 5, JobStatus.pending⟩ :=
  one_time_terminal_after_run (fun _ _ => 0) ExecOutcome.failure 10
    ⟨ScheduleType.one_time, 5, none, some 5, JobStatus.pending⟩
    (by decide) (by decide) (by decide)

/-- C4: a job whose status is `Running` (completion callback not yet
fired) is never due again: every due-check on it is false and any
sequence of later poll cycles without its completion leaves it
untouched — it is never re-dispatched. -/
theorem running_never_redispatched (j : Job)
    (h : j.status = JobStatus.running) :
    (∀ now, should_run j now = false) ∧
    (∀ ts, pollCyclesNoCompletion ts j = j) := by
  have hsr : ∀ now, should_run j now = false := by
    intro now
    unfold should_run
    rw [h]
    simp
  refine ⟨hsr, ?_⟩
  intro ts
  induction ts with
  | nil => rfl
  | cons t ts ih =>
      rw [pollCyclesNoCompletion]
      rw [show dispatchStep t j = j from by unfold dispatchStep; rw [hsr t]; simp]
      exact ih

/-- Witness for C4: a Running daily job whose `nextRun` has long
arrived. -/
theorem running_never_redispatched_witness :
    (∀ now, should_run
        ⟨ScheduleType.daily, 0, some 5, some 10, JobStatus.running⟩ now = false) ∧
    (∀ ts, pollCyclesNoCompletion ts
        ⟨ScheduleType.daily, 0, some 5, some 10, JobStatus.running⟩ =
      ⟨ScheduleType.daily, 0, some 5, some 10, JobStatus.running⟩) :=
  running_never_redispatched
    ⟨ScheduleType.daily, 0, some 5, some 10, JobStatus.running⟩ (by decide)

theorem pollCycleGo_getElem (recur : Job → Nat → Nat)
    (ocs : Nat → ExecOutcome) (now : Nat) :
    ∀ jobs i0 k, (pollCycleGo recur ocs now i0 jobs)[k]? =
      (jobs[k]?).map (processJob recur (ocs (i0 + k)) now) := by
  intro jobs
  induction jobs with
  | nil => intro i0 k; simp [pollCycleGo]
  | cons j rest ih =>
      intro i0 k
      cases k with
      | zero => simp [pollCycleGo]
      | succ k =>
          rw [pollCycleGo]
          simp only [List.getElem?_cons_succ]
          rw [ih (i0 + 1) k]
          have : i0 + 1 + k = i0 + (k + 1) := by omega
          rw [this]

theorem pollCycleGo_length (recur : Job → Nat → Nat)
    (ocs : Nat → ExecOutcome) (now : Nat) :
    ∀ jobs i0, (pollCycleGo recur ocs now i0 jobs).length = jobs.length := by
  intro jobs
  induction jobs with
  | nil => intro i0; rfl
  | cons j rest ih => intro i0; simp [pollCycleGo, ih]

/-- C8: in any poll cycle, one job's execution failure or due-ness
evaluation exception neither stops the loop (the running flag is
untouched) nor removes any job (the job list keeps its length), nor
affects the processing of the other jobs (each job's result depends
only on that job and its own outcome, so the other jobs are evaluated
identically under any outcome for job `i`); a dispatched job whose
execution fails ends the cycle with status `Failed`. -/
theorem cycle_isolates_failures (recur : Job → Nat → Nat)
    (ocs ocs2 : Nat → ExecOutcome) (now : Nat) (running : Bool)
    (jobs : List Job) (i : Nat)
    (hagree : ∀ k, k ≠ i → ocs k = ocs2 k) :
    (pollCycle recur ocs now running jobs).1 = running ∧
    (pollCycle recur ocs now running jobs).2.length = jobs.length ∧
    (∀ k, (pollCycle recur ocs now running jobs).2[k]? =
        (jobs[k]?).map (processJob recur (ocs k) now)) ∧
    (∀ k, k ≠ i → (pollCycle recur ocs now running jobs).2[k]? =
        (pollCycle recur ocs2 now running jobs).2[k]?) ∧
    (∀ k j, jobs[k]? = some j → ocs k = ExecOutcome.failure →
        should_run j now = true →
        ∃ j2, (pollCycle recur ocs now running jobs).2[k]? = some j2 ∧
          j2.status = JobStatus.failed) := by
  have hpt : ∀ k, (pollCycle recur ocs now running jobs).2[k]? =
      (jobs[k]?).map (processJob recur (ocs k) now) := by
    intro k
    have := pollCycleGo_getElem recur ocs now jobs 0 k
    simpa [pollCycle] using this
  have hpt2 : ∀ k, (pollCycle recur ocs2 now running jobs).2[k]? =
      (jobs[k]?).map (processJob recur (ocs2 k) now) := by
    intro k
    have := pollCycleGo_getElem recur ocs2 now jobs 0 k
    simpa [pollCycle] using this
  refine ⟨rfl, ?_, hpt, ?_, ?_⟩
  · simpa [pollCycle] using pollCycleGo_length recur ocs now jobs 0
  · intro k hk
    rw [hpt k, hpt2 k, hagree k hk]
  · intro k j hjk hfail hdisp
    refine ⟨processJob recur (ocs k) now j, ?_, ?_⟩
    · rw [hpt k, hjk]; rfl
    · rw [hfail]
      unfold processJob
      rw [hdisp]
      simp [calculate_next_run_sched]
      cases hst : j.schedule_type <;> simp

/-- Witness for C8: two jobs, the first failing (or raising during
evaluation under the alternative outcome assignment), the second
succeeding either way. -/
theorem cycle_isolates_failures_witness :
    (pollCycle (fun _ _ => 0)
        (fun k => if k = 0 then ExecOutcome.failure else ExecOutcome.success)
        10 true
        [⟨ScheduleType.daily, 0, some 5, some 10, JobStatus.pending⟩,
         ⟨ScheduleType.daily, 0, some 5, some 10, JobStatus.pending⟩]).1 = true ∧
    (pollCycle (fun _ _ => 0)
        (fun k => if k = 0 then ExecOutcome.failure else ExecOutcome.success)
        10 true
        [⟨ScheduleType.daily, 0, some 5, some 10, JobStatus.pending⟩,
         ⟨ScheduleType.daily, 0, some 5, some 10, JobStatus.pending⟩]).2.length = 2 ∧
    ∃ j2, (pollCycle (fun _ _ => 0)
        (fun k => if k = 0 then ExecOutcome.failure else ExecOutcome.success)
        10 true
        [⟨ScheduleType.daily, 0, some 5, some 10, JobStatus.pending⟩,
         ⟨ScheduleType.daily, 0, some 5, some 10, JobStatus.pending⟩]).2[0]? = some j2 ∧
      j2.status = JobStatus.failed := by
  have h := cycle_isolates_failures (fun _ _ => 0)
    (fun k => if k = 0 then ExecOutcome.failure else ExecOutcome.success)
    (fun k => if k = 0 then ExecOutcome.evalError else ExecOutcome.success)
    10 true
    [⟨ScheduleType.daily, 0, some 5, some 10, JobStatus.pending⟩,
     ⟨ScheduleType.daily, 0, some 5, some 10, JobStatus.pending⟩]
    0 (fun k hk => by simp [hk])
  exact ⟨h.1, h.2.1, h.2.2.2.2 0
    ⟨ScheduleType.daily, 0, some 5, some 10, JobStatus.pending⟩
    (by decide) (by decide) (by decide)⟩

end Scheduler

namespace Scheduler

inductive SchedError
  | validationError
  | notFoundError
  | persistError
deriving DecidableEq

/-- A job configuration as submitted to `add`: its recurrence kind and
the recurrence-specific day/month selections. -/
structure BackupConfig where
  schedule_type : ScheduleType
  days : List Nat
  months : List Nat
  start_time : Nat
deriving DecidableEq

/-- The Job Store's observable state: the in-memory registry and the
persistence collaborator's contents. -/
structure StoreState where
  store : List BackupConfig
  persisted : List BackupConfig
deriving DecidableEq

/-- Modelled from the spec: the body of `_validate_backup_config` is
elided in the source (`# Ensure proper schedule configuration`); per
§4.1/§3/§8, validation rejects a Weekly job with an empty day set and
a Monthly job with an empty month set with `ValidationError`. -/
def validate_backup_config (c : BackupConfig) : Option SchedError :=
  if c.schedule_type = ScheduleType.weekly ∧ c.days = [] then
    some SchedError.validationError
  else if c.schedule_type = ScheduleType.monthly ∧ c.months = [] then
    some SchedError.validationError
  else none

/-- Modelled from the spec §4.1 `add(job)`: validate, then persist,
then register in memory; on a validation error the call fails before
either write. -/
def addJob (st : StoreState) (c : BackupConfig) :
    Option SchedError × StoreState :=
  match validate_backup_config c with
  | some e => (some e, st)
  | none =>
      (none, { store := st.store ++ [c], persisted := st.persisted ++ [c] })

/-- C7: `add` on a Weekly job with an empty day set (or a Monthly job
with an empty month set) fails with `ValidationError` and leaves both
the in-memory registry and the persisted configuration unchanged. -/
theorem add_empty_selection_rejected (st : StoreState) (c : BackupConfig)
    (h : (c.schedule_type = ScheduleType.weekly ∧ c.days = []) ∨
         (c.schedule_type = ScheduleType.monthly ∧ c.months = [])) :
    addJob st c = (some SchedError.validationError, st) := by
  rcases h with hw | hm
  · unfold addJob validate_backup_config
    rw [if_pos hw]
  · have hnw : ¬(c.schedule_type = ScheduleType.weekly ∧ c.days = []) := by
      intro hc
      rw [hm.1] at hc
      exact ScheduleType.noConfusion hc.1
    unfold addJob validate_backup_config
    rw [if_neg hnw, if_pos hm]

/-- Witness for C7: a Weekly job with `days = {}` against a one-entry
store. -/
theorem add_empty_selection_rejected_witness :
    addJob ⟨[⟨ScheduleType.daily, [], [], 0⟩], [⟨ScheduleType.daily, [], [], 0⟩]⟩
        ⟨ScheduleType.weekly, [], [1], 3600⟩ =
      (some SchedError.validationError,
        ⟨[⟨ScheduleType.daily, [], [], 0⟩], [⟨ScheduleType.daily, [], [], 0⟩]⟩) :=
  add_empty_selection_rejected
    ⟨[⟨ScheduleType.daily, [], [], 0⟩], [⟨ScheduleType.daily, [], [], 0⟩]⟩
    ⟨ScheduleType.weekly, [], [1], 3600⟩ (Or.inl ⟨rfl, rfl⟩)

end Scheduler
